import Mathlib

/-!
Verification development for the doc-srv document repository core
(`doc_repo.go`): the tree scanner (`scan`), the TTL cache
(`GetSections`) and the narrative renderer (`renderReadme`).

The Go code is shallowly embedded:

* Go strings are Lean `String`s; the `strings` stdlib functions used by
  the code (`ToLower`, `HasPrefix`, `HasSuffix`) are modelled at the
  character-list level (`String.data`), which coincides with Go's
  byte-wise behaviour on the ASCII data these functions are applied to.
* The filesystem under the repository root is a tree of entries
  (`Entry`); the root itself (`Root`) can fail to stat, be a regular
  file, or be a directory whose listing may be unreadable — exactly the
  cases `os.Stat` + `filepath.WalkDir` distinguish.  `filepath.WalkDir`
  delivers entries depth-first, and `filepath.Rel`/`filepath.Dir` on a
  walked path recover the path components relative to the root, so the
  walk is modelled as a list of events carrying those components
  (`walkList`); directory listings are taken as already in directory
  order, matching `os.ReadDir`'s sorted output.
* The goldmark markdown library is external: parsing is an oracle
  `parse : String → List MdNode` producing the AST the code traverses
  (goldmark's parser has no error return), and rendering is an oracle
  `render : List MdNode → Option String`, `none` modelling a renderer
  failure.  The AST traversal and URL rewriting (`ast.Walk` with the
  destination rewrite), which are this repository's code, are embedded
  as `rewriteNodes`/`rewriteDest`.
* `template.HTMLEscapeString` is embedded as `htmlEscapeString`
  (it escapes exactly the five characters the Go function escapes).
* Machine integers do not overflow in any relevant path; times are
  `Nat` nanoseconds with a monotone clock, matching `time.Since`.
* Go's `[]Section` built only via `append` is `nil` exactly when it is
  empty, so the cached slice is stored as `Option (List Section)` that
  is `none` exactly for the empty scan result.
-/

namespace DocSrv

/-- Model of Go `strings.ToLower`, character by character on the
string's data. -/
def strToLower (s : String) : String := ⟨s.data.map Char.toLower⟩

/-- Model of Go `strings.HasPrefix`. -/
def strHasPrefix (s p : String) : Bool := p.data.isPrefixOf s.data

/-- Model of Go `strings.HasSuffix`. -/
def strHasSuffix (s p : String) : Bool := p.data.isSuffixOf s.data

/-- Goldmark AST node as traversed by `renderReadme`: the walk only
distinguishes image nodes, link nodes (both carrying a destination)
and everything else; all carry child nodes. -/
inductive MdNode where
  | image (destination : String) (children : List MdNode)
  | link (destination : String) (children : List MdNode)
  | other (children : List MdNode)

/-- `isRelativeURL` from `doc_repo.go`: true when the URL looks like a
relative path inside a README (does not start with a slash or
http/https). -/
def isRelativeURL (u : String) : Bool :=
  let lower := strToLower u
  if strHasPrefix lower "http://" || strHasPrefix lower "https://" then false
  else !(strHasPrefix lower "/")

/-- The destination rewrite applied by `renderReadme`'s AST walk:
relative URLs get the base prefix, everything else passes through. -/
def rewriteDest (base : String) (dest : String) : String :=
  if isRelativeURL dest then base ++ dest else dest

/-- `ast.Walk` of `renderReadme`: rewrites the destination of every
image and link node in the document. -/
def rewriteNodes (base : String) : List MdNode → List MdNode
  | [] => []
  | .image d cs :: rest =>
      .image (rewriteDest base d) (rewriteNodes base cs) :: rewriteNodes base rest
  | .link d cs :: rest =>
      .link (rewriteDest base d) (rewriteNodes base cs) :: rewriteNodes base rest
  | .other cs :: rest =>
      .other (rewriteNodes base cs) :: rewriteNodes base rest

/-- All image/link destinations of a node list, in traversal order. -/
def destsList : List MdNode → List String
  | [] => []
  | .image d cs :: rest => d :: (destsList cs ++ destsList rest)
  | .link d cs :: rest => d :: (destsList cs ++ destsList rest)
  | .other cs :: rest => destsList cs ++ destsList rest

/-- Model of `template.HTMLEscapeString` on one character: the Go
function escapes exactly `<`, `>`, `&`, the double quote and the
apostrophe. -/
def htmlEscapeChar (c : Char) : String :=
  if c = Char.ofNat 34 then "&#34;"
  else if c = Char.ofNat 39 then "&#39;"
  else if c = Char.ofNat 38 then "&amp;"
  else if c = Char.ofNat 60 then "&lt;"
  else if c = Char.ofNat 62 then "&gt;"
  else String.singleton c

/-- Model of `template.HTMLEscapeString`. -/
def htmlEscapeString (s : String) : String :=
  String.join (s.data.map htmlEscapeChar)

/-- The parse–rewrite–render pipeline of `renderReadme` on file content
that was successfully read: parse, rewrite relative URLs against the
`"/docs/<relDir>/"` base, render; if rendering fails, fall back to the
HTML-escaped raw input. -/
def readmeVal (parse : String → List MdNode) (render : List MdNode → Option String)
    (relDir : String) (content : String) : String :=
  match render (rewriteNodes ("/docs/" ++ relDir ++ "/") (parse content)) with
  | none => htmlEscapeString content
  | some html => html

/-- `renderReadme` from `doc_repo.go`: reads the README (an unreadable
file is the only error return), then renders via `readmeVal`. -/
def renderReadme (parse : String → List MdNode) (render : List MdNode → Option String)
    (content : Option String) (relDir : String) : Except Unit String :=
  match content with
  | none => .error ()
  | some c => .ok (readmeVal parse render relDir c)

/-!
A filesystem entry below the root is a regular file whose content read
either succeeds (`some`) or fails (`none`), or a directory whose
listing is readable or not.  Directory listings (`EntryList`) are a
mutual inductive rather than `List Entry` so that the walk below is
structurally recursive; a listing is taken to be in directory order,
matching the sorted output of `os.ReadDir`.
-/
mutual
/-- A regular file (with its read result) or a directory. -/
inductive Entry where
  | file (name : String) (content : Option String)
  | dir (name : String) (readable : Bool) (children : EntryList)
/-- A directory listing. -/
inductive EntryList where
  | nil
  | cons (head : Entry) (tail : EntryList)
end

/-- An entry occurs in a directory listing. -/
def EntryList.Mem (x : Entry) : EntryList → Prop
  | .nil => False
  | .cons e rest => x = e ∨ EntryList.Mem x rest

/-- The state of the repository root path as seen by `os.Stat` and
`filepath.WalkDir`: stat fails; or the root is a regular file; or it is
a directory (whose listing may itself be unreadable). -/
inductive Root where
  | statErr
  | rootFile
  | rootDir (readable : Bool) (children : EntryList)

/-- One call of the `filepath.WalkDir` callback, carrying the
root-relative path components: a regular file (its containing
directory's components, base name and read result), a directory, or an
access error reported for a path. -/
inductive WalkEvent where
  | fileEv (dirParts : List String) (name : String) (content : Option String)
  | dirEv (parts : List String)
  | errEv (parts : List String)
deriving DecidableEq

/-!
The event sequence `filepath.WalkDir` produces for one entry and for a
directory listing below a directory whose path components relative to
the root are `pre`: depth-first, a directory event before its
children, an error event (and no descent) for an unreadable directory.
-/
mutual
/-- Walk events of a single entry. -/
def walkEntry (pre : List String) : Entry → List WalkEvent
  | .file n c => [.fileEv pre n c]
  | .dir n rd gs =>
      .dirEv (pre ++ [n]) ::
        (if rd then walkList (pre ++ [n]) gs else [.errEv (pre ++ [n])])
/-- Walk events of a directory listing. -/
def walkList (pre : List String) : EntryList → List WalkEvent
  | .nil => []
  | .cons e rest => walkEntry pre e ++ walkList pre rest
end

/-- `Document` from `doc_repo.go`. -/
structure Document where
  Name : String
  URL : String
deriving DecidableEq

/-- `Section` from `doc_repo.go` (`template.HTML` is a string). -/
structure Section where
  Name : String
  Documents : List Document
  Readme : String
deriving DecidableEq

/-- The only fatal error of `scan`: the root cannot be statted. -/
inductive ScanError where
  | rootUnavailable
deriving DecidableEq

/-- The accumulator state of `scan`'s walk: the General bucket and the
per-directory section map (an insertion-ordered association list keyed
by the directory's relative path). -/
structure ScanState where
  generalDocs : List Document
  sectionsMap : List (String × Section)
deriving DecidableEq

/-- Join relative-path components with forward slashes (the form
`filepath.ToSlash` produces; on the modelled platform the separator is
already the slash). -/
def joinParts (ps : List String) : String := String.intercalate "/" ps

/-- Case-insensitive `.pdf` extension test used by the walk callback. -/
def isPdfName (n : String) : Bool := strHasSuffix (strToLower n) ".pdf"

/-- `sectionsMap[dirRel]` lookup miss creates the empty section for the
key (`&Section{Name: filepath.ToSlash(dirRel)}`). -/
def ensureSec (m : List (String × Section)) (k : String) : List (String × Section) :=
  match m.lookup k with
  | some _ => m
  | none => m ++ [(k, { Name := k, Documents := [], Readme := "" })]

/-- Mutation of the section stored under a key (the Go map holds a
pointer that the callback mutates in place). -/
def updateSec (m : List (String × Section)) (k : String) (f : Section → Section) :
    List (String × Section) :=
  m.map fun p => if p.1 = k then (p.1, f p.2) else p

/-- The body of `scan`'s `walkFn` for one walk event: errors and
directories are skipped; a file directly under the root lands in the
General bucket when it is a `.pdf`; every other file ensures its
directory's section exists and then contributes a `.pdf` document or a
rendered README. -/
def processEvent (parse : String → List MdNode) (render : List MdNode → Option String)
    (st : ScanState) (ev : WalkEvent) : ScanState :=
  match ev with
  | .errEv _ => st
  | .dirEv _ => st
  | .fileEv dirParts name content =>
    let lowerName := strToLower name
    if dirParts.isEmpty then
      if strHasSuffix lowerName ".pdf" then
        { st with generalDocs := st.generalDocs ++ [⟨name, "/docs/" ++ name⟩] }
      else st
    else
      let dirRel := joinParts dirParts
      let m := ensureSec st.sectionsMap dirRel
      if strHasSuffix lowerName ".pdf" then
        { st with sectionsMap := updateSec m dirRel fun s =>
            { s with Documents :=
                s.Documents ++ [⟨name, "/docs/" ++ joinParts (dirParts ++ [name])⟩] } }
      else if lowerName == "readme.md" then
        match renderReadme parse render content dirRel with
        | .error _ => { st with sectionsMap := m }
        | .ok html => { st with sectionsMap := updateSec m dirRel fun s =>
            { s with Readme := html } }
      else { st with sectionsMap := m }

/-- Lexicographic at-most comparison of character lists: the order Go
uses on strings (byte-wise over UTF-8, which on valid text coincides
with code-point order). -/
def leChars : List Char → List Char → Bool
  | [], _ => true
  | _ :: _, [] => false
  | a :: as, b :: bs =>
      if a < b then true else if b < a then false else leChars as bs

/-- The order of Go string comparison (`sort.Strings` ascending). -/
def strLe (a b : String) : Prop := leChars a.data b.data = true

instance : DecidableRel strLe := fun a b =>
  inferInstanceAs (Decidable (leChars a.data b.data = true))

/-- The comparator of the document `sort.Slice` calls: ascending by
case-insensitive name. -/
def docLe (a b : Document) : Prop := strLe (strToLower a.Name) (strToLower b.Name)

instance : DecidableRel docLe := fun a b =>
  inferInstanceAs (Decidable (strLe (strToLower a.Name) (strToLower b.Name)))

/-- `sort.Slice` of documents by case-insensitive name (`sort.Slice`
promises a permutation ordered by the comparator; embedded as an
insertion sort). -/
def sortDocs (ds : List Document) : List Document :=
  ds.insertionSort docLe

/-- Assembly of the General section: emitted first, only when its
bucket is non-empty, documents sorted case-insensitively. -/
def generalSections (st : ScanState) : List Section :=
  if st.generalDocs.isEmpty then []
  else [{ Name := "Общее", Documents := sortDocs st.generalDocs, Readme := "" }]

/-- Assembly of the per-directory sections: keys sorted with
`sort.Strings`, accumulators with no documents and no narrative
dropped, documents sorted case-insensitively. -/
def dirSections (st : ScanState) : List Section :=
  ((st.sectionsMap.map Prod.fst).insertionSort strLe).filterMap fun k =>
    match st.sectionsMap.lookup k with
    | none => none
    | some sec =>
      if sec.Documents.isEmpty && (sec.Readme == "") then none
      else some { sec with Documents := sortDocs sec.Documents }

/-- The final slice `scan` returns: General first, then the sorted
directory sections. -/
def assemble (st : ScanState) : List Section :=
  generalSections st ++ dirSections st

/-- `scan` from `doc_repo.go`.  A root that fails `os.Stat` is the
fatal error; a root that stats as a regular file is visited once by
`WalkDir` and skipped (`path == r.dir`), yielding no sections; a root
directory whose listing is unreadable produces a single error event,
logged and skipped; otherwise the walk events are folded through the
callback and the state is assembled. -/
def scan (parse : String → List MdNode) (render : List MdNode → Option String) :
    Root → Except ScanError (List Section)
  | .statErr => .error .rootUnavailable
  | .rootFile => .ok []
  | .rootDir false _ => .ok []
  | .rootDir true cs =>
      .ok (assemble ((walkList [] cs).foldl (processEvent parse render) ⟨[], []⟩))

/-- `DocRepository` from `doc_repo.go`.  The cached slice is `none`
exactly when the Go field holds a nil slice (never assigned, or
assigned a scan result that appended nothing); `cacheTime` is the zero
time at construction. -/
structure DocRepository where
  cache : Option (List Section)
  cacheTime : Nat
  ttl : Nat
deriving DecidableEq

/-- `NewDocRepository`: zero-valued cache and cache time. -/
def NewDocRepository (cacheTTL : Nat) : DocRepository :=
  { cache := none, cacheTime := 0, ttl := cacheTTL }

/-- `GetSections` from `doc_repo.go`, sequentially (the lock serialises
callers, so one call runs at a time and the double-checked re-test
collapses onto the first test).  The filesystem as found at the root at
call time and the current clock are arguments.  Returns the result and
the repository state after the call. -/
def GetSections (parse : String → List MdNode) (render : List MdNode → Option String)
    (r : DocRepository) (fsys : Root) (now : Nat) :
    Except ScanError (List Section) × DocRepository :=
  if now - r.cacheTime < r.ttl ∧ r.cache.isSome = true then
    (.ok (r.cache.getD []), r)
  else
    match scan parse render fsys with
    | .error e => (.error e, r)
    | .ok sections =>
        (.ok sections,
          { r with cache := if sections.isEmpty then none else some sections,
                   cacheTime := now })

/-- Modelled from the spec's words (for comparison with the source's
`isRelativeURL`): a destination reference is relative when it does not
start with `/` and is not a fully-qualified `http://`/`https://` URL
with the scheme matched case-insensitively. -/
def specRelativeRef (d : String) : Bool :=
  !(strHasPrefix d "/") && !(strHasPrefix (strToLower d) "http://") &&
    !(strHasPrefix (strToLower d) "https://")

/-- A trivial parser oracle used to instantiate witnesses. -/
def parse0 : String → List MdNode := fun _ => [.other []]

/-- A renderer oracle that always fails, used to instantiate
witnesses. -/
def render0 : List MdNode → Option String := fun _ => none

/-- The concrete scenario tree of the spec and of
`TestDocRepository_Scan`: `root.pdf` at the root, `HR` with
`hiring.pdf` and a README, `HR/2025` with `plan.pdf` and its own
README (children listed in directory order). -/
def scanScenarioTree : EntryList :=
  .cons
    (.dir "HR" true
      (.cons
        (.dir "2025" true
          (.cons (.file "README.md" (some "# HR 2025"))
            (.cons (.file "plan.pdf" (some "pdf content")) .nil)))
        (.cons (.file "README.md" (some "# HR Section"))
          (.cons (.file "hiring.pdf" (some "pdf content")) .nil))))
    (.cons (.file "root.pdf" (some "pdf content")) .nil)

/-- An empty root directory. -/
def emptyRootDir : Root := .rootDir true .nil

/-- A root directory holding a single PDF. -/
def onePdfRootDir : Root :=
  .rootDir true (.cons (.file "a.pdf" (some "x")) .nil)

/-- The file named `name` with read result `c` exists at the directory
whose root-relative path components are the middle argument, every
directory on the way being readable. -/
inductive FileIn : EntryList → List String → String → Option String → Prop
  | root {es : EntryList} {n : String} {c : Option String} :
      EntryList.Mem (Entry.file n c) es → FileIn es [] n c
  | step {es : EntryList} {d : String} {gs : EntryList} {ps : List String}
      {n : String} {c : Option String} :
      EntryList.Mem (Entry.dir d true gs) es → FileIn gs ps n c →
        FileIn es (d :: ps) n c

/-- A document of the General section originates in a `.pdf` file
sitting directly under the root. -/
def GenDocOK (cs : EntryList) (d : Document) : Prop :=
  ∃ c, FileIn cs [] d.Name c ∧ isPdfName d.Name = true

/-- A document of the section keyed `key` originates in a `.pdf` file
sitting directly inside the directory whose relative path is `key`. -/
def SecDocOK (cs : EntryList) (key : String) (d : Document) : Prop :=
  ∃ dp c, dp ≠ [] ∧ joinParts dp = key ∧ FileIn cs dp d.Name c ∧
    isPdfName d.Name = true

/-- Invariant of the scan accumulator state relative to the tree being
walked: General documents come from root-level `.pdf`s, every mapped
section is named by its key and its documents come from `.pdf`s
directly inside that key's directory. -/
def StateOK (cs : EntryList) (st : ScanState) : Prop :=
  (∀ d ∈ st.generalDocs, GenDocOK cs d) ∧
  (∀ p ∈ st.sectionsMap, p.2.Name = p.1 ∧ ∀ d ∈ p.2.Documents, SecDocOK cs p.1 d)

/-- A walk event is faithful to the tree: any file event's components
locate a real file in the tree. -/
def EvOK (cs : EntryList) (ev : WalkEvent) : Prop :=
  ∀ dp n c, ev = .fileEv dp n c → FileIn cs dp n c

theorem char_ofNat_toNat {n : Nat} (h1 : 97 ≤ n) (h2 : n ≤ 122) :
    (Char.ofNat n).toNat = n := by
  have hv : n.isValidChar := Or.inl (by omega)
  simp [Char.ofNat, hv, Char.ofNatAux, Char.toNat, UInt32.toNat, BitVec.toNat_ofNatLt]

theorem toLower_eq_slash {c : Char} (h : Char.toLower c = Char.ofNat 47) :
    c = Char.ofNat 47 := by
  unfold Char.toLower at h
  dsimp only at h
  split at h
  · exfalso
    rename_i hc
    have h1 : (Char.ofNat (c.toNat + 32)).toNat = c.toNat + 32 :=
      char_ofNat_toNat (by omega) (by omega)
    rw [h] at h1
    have h47 : (Char.ofNat 47).toNat = 47 := by decide
    omega
  · exact h

theorem strHasPrefix_slash_toLower (u : String) :
    strHasPrefix (strToLower u) "/" = strHasPrefix u "/" := by
  have hdata : ("/" : String).data = [Char.ofNat 47] := by decide
  unfold strHasPrefix strToLower
  rw [hdata]
  cases h : u.data with
  | nil => simp
  | cons c cs =>
    simp only [List.map_cons, List.isPrefixOf, List.isPrefixOf_nil_left, Bool.and_true]
    by_cases hc : c = Char.ofNat 47
    · subst hc
      decide
    · have h1 : (Char.ofNat 47 == c) = false := beq_eq_false_iff_ne.mpr (Ne.symm hc)
      have h2 : Char.toLower c ≠ Char.ofNat 47 := fun hh => hc (toLower_eq_slash hh)
      have h3 : (Char.ofNat 47 == Char.toLower c) = false :=
        beq_eq_false_iff_ne.mpr (Ne.symm h2)
      rw [h1, h3]

theorem isRelativeURL_eq_specRelativeRef (u : String) :
    isRelativeURL u = specRelativeRef u := by
  simp only [isRelativeURL, specRelativeRef]
  rw [strHasPrefix_slash_toLower]
  cases h1 : strHasPrefix (strToLower u) "http://" <;>
    cases h2 : strHasPrefix (strToLower u) "https://" <;>
      cases h3 : strHasPrefix u "/" <;> simp [h1, h2, h3]

theorem destsList_rewriteNodes (base : String) :
    (ns : List MdNode) →
      destsList (rewriteNodes base ns) = (destsList ns).map (rewriteDest base)
  | [] => by simp [rewriteNodes, destsList]
  | .image d cs :: rest => by
      simp [rewriteNodes, destsList, destsList_rewriteNodes base cs,
        destsList_rewriteNodes base rest]
  | .link d cs :: rest => by
      simp [rewriteNodes, destsList, destsList_rewriteNodes base cs,
        destsList_rewriteNodes base rest]
  | .other cs :: rest => by
      simp [rewriteNodes, destsList, destsList_rewriteNodes base cs,
        destsList_rewriteNodes base rest]

/-- C3: in a parsed README the AST walk rewrites every image/link
destination by `rewriteDest`, and a destination that does not start
with `/` and is not a case-insensitive `http://`/`https://` URL becomes
`"/docs/" ++ sectionPath ++ "/" ++ original`; every other destination
passes through unchanged. -/
theorem c3_relative_link_rewrite (relDir : String) (ns : List MdNode) (d : String) :
    destsList (rewriteNodes ("/docs/" ++ relDir ++ "/") ns)
        = (destsList ns).map (rewriteDest ("/docs/" ++ relDir ++ "/")) ∧
    rewriteDest ("/docs/" ++ relDir ++ "/") d
        = (if specRelativeRef d then "/docs/" ++ relDir ++ "/" ++ d else d) := by
  refine ⟨destsList_rewriteNodes _ ns, ?_⟩
  unfold rewriteDest
  rw [isRelativeURL_eq_specRelativeRef]

/-- C6: on content that was read successfully, the narrative renderer
never returns an error, and when the external renderer fails it
returns the HTML-escaped raw input. -/
theorem c6_renderer_never_fails (parse : String → List MdNode)
    (render : List MdNode → Option String) (content relDir : String) :
    (∃ html, renderReadme parse render (some content) relDir = .ok html) ∧
    (render (rewriteNodes ("/docs/" ++ relDir ++ "/") (parse content)) = none →
      renderReadme parse render (some content) relDir = .ok (htmlEscapeString content)) := by
  constructor
  · exact ⟨readmeVal parse render relDir content, rfl⟩
  · intro h
    show Except.ok (readmeVal parse render relDir content) = _
    unfold readmeVal
    rw [h]

/-- Witness for C6 at a concrete input. -/
theorem c6_renderer_never_fails_witness :
    renderReadme parse0 render0 (some "a&b") "HR" = .ok (htmlEscapeString "a&b") :=
  (c6_renderer_never_fails parse0 render0 "a&b" "HR").2 rfl

/-- C10: a `readme.md` (any letter case) directly under the root is
ignored entirely by `scan`, and no section the General assembly emits
ever carries a narrative. -/
theorem c10_root_readme_ignored (parse : String → List MdNode)
    (render : List MdNode → Option String) :
    (∀ (name : String) (content : Option String) (cs : EntryList),
      strToLower name = "readme.md" →
      scan parse render (.rootDir true (.cons (.file name content) cs)) =
        scan parse render (.rootDir true cs)) ∧
    (∀ st, ∀ s ∈ generalSections st, s.Readme = "") := by
  constructor
  · intro name content cs h
    have hsuf : strHasSuffix (strToLower name) ".pdf" = false := by
      rw [h]; decide
    simp [scan, walkList, walkEntry, processEvent, hsuf]
  · intro st s hs
    unfold generalSections at hs
    split at hs
    · simp at hs
    · simp at hs
      rw [hs]

/-- Witness for C10 at a concrete input. -/
theorem c10_root_readme_ignored_witness :
    scan parse0 render0 (.rootDir true (.cons (.file "README.md" (some "# x")) .nil)) =
      scan parse0 render0 (.rootDir true .nil) :=
  (c10_root_readme_ignored parse0 render0).1 "README.md" (some "# x") .nil (by decide)

/-- Counterexample for C7: a root that exists as a regular file is not
a directory, yet `scan` succeeds with an empty section list instead of
returning the RootUnavailable error the claim requires. -/
theorem c7_counterexample :
    scan parse0 render0 Root.rootFile = .ok [] ∧
    scan parse0 render0 Root.rootFile ≠ .error ScanError.rootUnavailable :=
  ⟨rfl, fun h => by simp [scan] at h⟩

/-- C7 amended: `scan` returns RootUnavailable exactly when the root
cannot be statted; a root that is a regular file, or a directory whose
listing is unreadable, yields an empty list without error; a walk over
a readable root directory never errors; an unreadable subdirectory is
skipped without affecting the rest; an unreadable README leaves its
section without documents or narrative (hence dropped). -/
theorem c7_amended_root_errors (parse : String → List MdNode)
    (render : List MdNode → Option String) :
    scan parse render .statErr = .error .rootUnavailable ∧
    scan parse render .rootFile = .ok [] ∧
    (∀ rd, scan parse render (.rootDir false rd) = .ok []) ∧
    (∀ cs, ∃ secs, scan parse render (.rootDir true cs) = .ok secs) ∧
    (∀ n bad cs, scan parse render (.rootDir true (.cons (.dir n false bad) cs)) =
        scan parse render (.rootDir true cs)) ∧
    scan parse render
        (.rootDir true (.cons (.dir "D" true (.cons (.file "README.md" none) .nil)) .nil)) =
      .ok [] := by
  refine ⟨rfl, rfl, fun rd => rfl, fun cs => ⟨_, rfl⟩, ?_, rfl⟩
  intro n bad cs
  simp [scan, walkList, walkEntry, processEvent]

/-- C1: on the concrete scenario tree, `scan` (and a first
`GetSections` call) returns exactly the three sections General
(`root.pdf` only), `HR` (`hiring.pdf` only, non-empty readme) and
`HR/2025` (`plan.pdf` only, non-empty readme); `HR` does not contain
`plan.pdf`.  The renderer oracle is assumed never to produce empty
HTML for these READMEs (goldmark renders a heading; on failure the
code falls back to the escaped non-empty source). -/
theorem c1_concrete_scenario (parse : String → List MdNode)
    (render : List MdNode → Option String)
    (hre : ∀ doc, render doc ≠ some "") :
    scan parse render (.rootDir true scanScenarioTree) = .ok
      [ ⟨"Общее", [⟨"root.pdf", "/docs/root.pdf"⟩], ""⟩,
        ⟨"HR", [⟨"hiring.pdf", "/docs/HR/hiring.pdf"⟩],
          readmeVal parse render "HR" "# HR Section"⟩,
        ⟨"HR/2025", [⟨"plan.pdf", "/docs/HR/2025/plan.pdf"⟩],
          readmeVal parse render "HR/2025" "# HR 2025"⟩ ] ∧
    readmeVal parse render "HR" "# HR Section" ≠ "" ∧
    readmeVal parse render "HR/2025" "# HR 2025" ≠ "" ∧
    (GetSections parse render (NewDocRepository 60) (.rootDir true scanScenarioTree) 0).1 =
      scan parse render (.rootDir true scanScenarioTree) := by
  refine ⟨rfl, ?_, ?_, rfl⟩
  · unfold readmeVal
    split
    · decide
    · rename_i html heq
      intro he
      subst he
      exact hre _ heq
  · unfold readmeVal
    split
    · decide
    · rename_i html heq
      intro he
      subst he
      exact hre _ heq

/-- Witness for C1 at concrete oracles. -/
theorem c1_concrete_scenario_witness :
    scan parse0 render0 (.rootDir true scanScenarioTree) = .ok
      [ ⟨"Общее", [⟨"root.pdf", "/docs/root.pdf"⟩], ""⟩,
        ⟨"HR", [⟨"hiring.pdf", "/docs/HR/hiring.pdf"⟩],
          readmeVal parse0 render0 "HR" "# HR Section"⟩,
        ⟨"HR/2025", [⟨"plan.pdf", "/docs/HR/2025/plan.pdf"⟩],
          readmeVal parse0 render0 "HR/2025" "# HR 2025"⟩ ] ∧
    readmeVal parse0 render0 "HR" "# HR Section" ≠ "" ∧
    readmeVal parse0 render0 "HR/2025" "# HR 2025" ≠ "" ∧
    (GetSections parse0 render0 (NewDocRepository 60) (.rootDir true scanScenarioTree) 0).1 =
      scan parse0 render0 (.rootDir true scanScenarioTree) :=
  c1_concrete_scenario parse0 render0 (by intro doc h; simp [render0] at h)

/-- Counterexample for C2: a successful refresh that scanned an empty
tree stores Go's nil slice as the cache, so the next call — strictly
inside the TTL window — rescans and returns the new tree instead of
the cached (old) empty list. -/
theorem c2_counterexample :
    (GetSections parse0 render0 (NewDocRepository 10) emptyRootDir 0).1 = .ok [] ∧
    (GetSections parse0 render0
        (GetSections parse0 render0 (NewDocRepository 10) emptyRootDir 0).2
        onePdfRootDir 1).1 = .ok [⟨"Общее", [⟨"a.pdf", "/docs/a.pdf"⟩], ""⟩] ∧
    (Except.ok [(⟨"Общее", [⟨"a.pdf", "/docs/a.pdf"⟩], ""⟩ : Section)]
        : Except ScanError (List Section)) ≠ .ok [] :=
  ⟨rfl, rfl, by simp⟩

/-- C2 amended: when the cache actually holds a list (the Go nil-slice
cache stored after a successful but empty scan counts as no cache and
forces a rescan), a call strictly inside the TTL returns the cached
list for any current filesystem state without scanning; a call at or
after TTL expiry — or with an empty cache — returns the result of
scanning the current tree. -/
theorem c2_amended (parse : String → List MdNode) (render : List MdNode → Option String)
    (r : DocRepository) (fs : Root) (t : Nat) :
    (∀ l, r.cache = some l → t - r.cacheTime < r.ttl →
      GetSections parse render r fs t = (.ok l, r)) ∧
    (r.ttl ≤ t - r.cacheTime →
      (GetSections parse render r fs t).1 = scan parse render fs) ∧
    (r.cache = none → (GetSections parse render r fs t).1 = scan parse render fs) := by
  refine ⟨?_, ?_, ?_⟩
  · intro l hc ht
    unfold GetSections
    rw [hc]
    simp [ht]
  · intro ht
    unfold GetSections
    have hns : ¬(t - r.cacheTime < r.ttl ∧ r.cache.isSome = true) := by
      rintro ⟨h1, _⟩
      omega
    rw [if_neg hns]
    cases hs : scan parse render fs <;> simp
  · intro hc
    unfold GetSections
    have hns : ¬(t - r.cacheTime < r.ttl ∧ r.cache.isSome = true) := by
      rintro ⟨_, h2⟩
      rw [hc] at h2
      simp at h2
    rw [if_neg hns]
    cases hs : scan parse render fs <;> simp

/-- Witness for C2 (amended) at concrete inputs. -/
theorem c2_amended_witness :
    GetSections parse0 render0 ⟨some [⟨"Общее", [⟨"a.pdf", "/docs/a.pdf"⟩], ""⟩], 0, 10⟩
        Root.statErr 3 =
      (.ok [⟨"Общее", [⟨"a.pdf", "/docs/a.pdf"⟩], ""⟩],
        ⟨some [⟨"Общее", [⟨"a.pdf", "/docs/a.pdf"⟩], ""⟩], 0, 10⟩) ∧
    (GetSections parse0 render0 ⟨some [⟨"Общее", [⟨"a.pdf", "/docs/a.pdf"⟩], ""⟩], 0, 10⟩
        Root.statErr 12).1 = scan parse0 render0 Root.statErr :=
  ⟨(c2_amended parse0 render0 _ Root.statErr 3).1 _ rfl (by decide),
    (c2_amended parse0 render0 _ Root.statErr 12).2.1 (by decide)⟩

/-- C8: when a stale cache forces a refresh and `scan` fails, the
error goes to that caller, the repository state (cached list and
freshness timestamp) is left completely unchanged, and every later
call still attempts the scan of the then-current tree because the
cache is still stale. -/
theorem c8_failed_refresh (parse : String → List MdNode)
    (render : List MdNode → Option String) (r : DocRepository) (fs : Root)
    (t : Nat) (e : ScanError)
    (hstale : ¬(t - r.cacheTime < r.ttl ∧ r.cache.isSome = true))
    (hscan : scan parse render fs = .error e) :
    GetSections parse render r fs t = (.error e, r) ∧
    (∀ (fs2 : Root) (t2 : Nat), t ≤ t2 →
      (GetSections parse render r fs2 t2).1 = scan parse render fs2) := by
  constructor
  · unfold GetSections
    rw [if_neg hstale, hscan]
  · intro fs2 t2 ht
    unfold GetSections
    have hstale2 : ¬(t2 - r.cacheTime < r.ttl ∧ r.cache.isSome = true) := by
      rintro ⟨h1, h2⟩
      apply hstale
      refine ⟨?_, h2⟩
      have hle : t - r.cacheTime ≤ t2 - r.cacheTime := Nat.sub_le_sub_right ht _
      omega
    rw [if_neg hstale2]
    cases hs : scan parse render fs2 <;> simp

/-- Witness for C8 at concrete inputs. -/
theorem c8_failed_refresh_witness :
    GetSections parse0 render0 (NewDocRepository 5) Root.statErr 0 =
      (.error .rootUnavailable, NewDocRepository 5) ∧
    (GetSections parse0 render0 (NewDocRepository 5) Root.statErr 3).1 =
      scan parse0 render0 Root.statErr :=
  ⟨(c8_failed_refresh parse0 render0 (NewDocRepository 5) Root.statErr 0
      .rootUnavailable (by decide) rfl).1,
    (c8_failed_refresh parse0 render0 (NewDocRepository 5) Root.statErr 0
      .rootUnavailable (by decide) rfl).2 Root.statErr 3 (by decide)⟩

/-- C9: two `GetSections` calls over the same filesystem, the second
within the TTL window of whatever refresh governs the state after the
first call, return deep-equal results. -/
theorem c9_idempotent (parse : String → List MdNode)
    (render : List MdNode → Option String) (r : DocRepository) (fs : Root)
    (t1 t2 : Nat) (h12 : t1 ≤ t2)
    (hfresh : t2 - (GetSections parse render r fs t1).2.cacheTime < r.ttl) :
    (GetSections parse render (GetSections parse render r fs t1).2 fs t2).1 =
      (GetSections parse render r fs t1).1 := by
  by_cases hf : (t1 - r.cacheTime < r.ttl ∧ r.cache.isSome = true)
  · have hg : GetSections parse render r fs t1 = (.ok (r.cache.getD []), r) := by
      unfold GetSections
      rw [if_pos hf]
    rw [hg] at hfresh ⊢
    unfold GetSections
    rw [if_pos ⟨hfresh, hf.2⟩]
  · cases hs : scan parse render fs with
    | error e =>
      have hg : GetSections parse render r fs t1 = (.error e, r) := by
        unfold GetSections
        rw [if_neg hf, hs]
      rw [hg] at hfresh ⊢
      dsimp only at hfresh
      rcases Decidable.not_and_iff_or_not.mp hf with h1 | h2
      · exfalso
        have hle : t1 - r.cacheTime ≤ t2 - r.cacheTime := Nat.sub_le_sub_right h12 _
        omega
      · unfold GetSections
        rw [if_neg (fun hc => h2 hc.2), hs]
    | ok secs =>
      have hg : GetSections parse render r fs t1 =
          (.ok secs,
            { r with cache := if secs.isEmpty then none else some secs,
                     cacheTime := t1 }) := by
        unfold GetSections
        rw [if_neg hf, hs]
      rw [hg] at hfresh ⊢
      cases hemp : secs.isEmpty with
      | true =>
        simp only [hemp] at hfresh ⊢
        unfold GetSections
        rw [if_neg (by rintro ⟨_, hcc⟩; simp at hcc), hs]
      | false =>
        simp only [hemp] at hfresh ⊢
        unfold GetSections
        rw [if_pos ⟨hfresh, rfl⟩]
        simp

theorem fileIn_cons (e : Entry) {rest : EntryList} {ps : List String} {n : String}
    {c : Option String} (h : FileIn rest ps n c) : FileIn (.cons e rest) ps n c := by
  cases h with
  | root hm => exact .root (Or.inr hm)
  | step hm hf => exact .step (Or.inr hm) hf

mutual
theorem fileEv_walkEntry {pre dp : List String} {n : String} {c : Option String} :
    (e : Entry) → WalkEvent.fileEv dp n c ∈ walkEntry pre e →
      (e = Entry.file n c ∧ dp = pre) ∨
        (∃ d gs sub, e = Entry.dir d true gs ∧ dp = pre ++ d :: sub ∧ FileIn gs sub n c)
  | .file n2 c2, h => by
      simp only [walkEntry, List.mem_singleton, WalkEvent.fileEv.injEq] at h
      obtain ⟨h1, h2, h3⟩ := h
      subst h1
      subst h2
      subst h3
      exact Or.inl ⟨rfl, rfl⟩
  | .dir n2 rd gs, h => by
      simp only [walkEntry, List.mem_cons] at h
      rcases h with h | h
      · exact absurd h (by simp)
      · cases rd with
        | false => simp at h
        | true =>
          simp only [if_pos] at h
          obtain ⟨sub, hdp, hf⟩ := fileEv_walkList gs h
          refine Or.inr ⟨n2, gs, sub, rfl, ?_, hf⟩
          rw [hdp]
          simp
theorem fileEv_walkList {pre dp : List String} {n : String} {c : Option String} :
    (es : EntryList) → WalkEvent.fileEv dp n c ∈ walkList pre es →
      ∃ sub, dp = pre ++ sub ∧ FileIn es sub n c
  | .nil, h => by simp [walkList] at h
  | .cons e rest, h => by
      rw [walkList] at h
      rcases List.mem_append.mp h with h1 | h2
      · rcases fileEv_walkEntry e h1 with ⟨he, hdp⟩ | ⟨d, gs, sub, he, hdp, hf⟩
        · subst he
          subst hdp
          exact ⟨[], by simp, .root (Or.inl rfl)⟩
        · subst he
          exact ⟨d :: sub, hdp, .step (Or.inl rfl) hf⟩
      · obtain ⟨sub, hdp, hf⟩ := fileEv_walkList rest h2
        exact ⟨sub, hdp, fileIn_cons e hf⟩
end

theorem walkList_evOK (cs : EntryList) : ∀ ev ∈ walkList [] cs, EvOK cs ev := by
  intro ev hev dp n c heq
  subst heq
  obtain ⟨sub, hdp, hf⟩ := fileEv_walkList cs hev
  simp only [List.nil_append] at hdp
  subst hdp
  exact hf

theorem mem_walkList_of_mem (pre : List String) {x : Entry} {ev : WalkEvent} :
    (es : EntryList) → EntryList.Mem x es → ev ∈ walkEntry pre x → ev ∈ walkList pre es
  | .nil, hm, _ => absurd hm (by simp [EntryList.Mem])
  | .cons e rest, hm, hev => by
      rw [walkList]
      rcases hm with he | hm2
      · subst he
        exact List.mem_append_left _ hev
      · exact List.mem_append_right _ (mem_walkList_of_mem pre rest hm2 hev)

theorem fileIn_mem_walkList {es : EntryList} {sub : List String} {n : String}
    {c : Option String} (h : FileIn es sub n c) :
    ∀ pre, WalkEvent.fileEv (pre ++ sub) n c ∈ walkList pre es := by
  induction h with
  | root hm =>
    intro pre
    rw [List.append_nil]
    exact mem_walkList_of_mem pre _ hm (by simp [walkEntry])
  | @step es2 d gs ps n2 c2 hm hf ih =>
    intro pre
    refine mem_walkList_of_mem pre _ hm ?_
    rw [walkEntry]
    refine List.mem_cons_of_mem _ ?_
    have hh := ih (pre ++ [d])
    simpa using hh

theorem leChars_total : ∀ as bs : List Char, leChars as bs = true ∨ leChars bs as = true
  | [], _ => Or.inl rfl
  | _ :: _, [] => Or.inr rfl
  | a :: as, b :: bs => by
      rcases lt_trichotomy a b with h | h | h
      · left
        simp [leChars, h]
      · subst h
        rcases leChars_total as bs with h2 | h2 <;> simp [leChars, lt_irrefl, h2]
      · right
        simp [leChars, h]

theorem leChars_trans : ∀ as bs cs : List Char,
    leChars as bs = true → leChars bs cs = true → leChars as cs = true
  | [], _, _ => fun _ _ => rfl
  | _ :: _, [], _ => fun h _ => by simp [leChars] at h
  | _ :: _, _ :: _, [] => fun _ h => by simp [leChars] at h
  | a :: as, b :: bs, c :: cs => fun h1 h2 => by
      simp only [leChars] at h1 h2 ⊢
      rcases lt_trichotomy a b with hab | hab | hab
      · rcases lt_trichotomy b c with hbc | hbc | hbc
        · simp [lt_trans hab hbc]
        · subst hbc
          simp [hab]
        · rw [if_neg (asymm hbc), if_pos hbc] at h2
          simp at h2
      · subst hab
        rcases lt_trichotomy a c with hac | hac | hac
        · simp [hac]
        · subst hac
          rw [if_neg (lt_irrefl a), if_neg (lt_irrefl a)] at h1 h2 ⊢
          exact leChars_trans as bs cs h1 h2
        · rw [if_neg (asymm hac), if_pos hac] at h2
          simp at h2
      · rw [if_neg (asymm hab), if_pos hab] at h1
        simp at h1

theorem strLe_total (a b : String) : strLe a b ∨ strLe b a := leChars_total a.data b.data

theorem strLe_trans {a b c : String} (h1 : strLe a b) (h2 : strLe b c) : strLe a c :=
  leChars_trans a.data b.data c.data h1 h2

theorem docLe_total (a b : Document) : docLe a b ∨ docLe b a :=
  leChars_total (strToLower a.Name).data (strToLower b.Name).data

theorem docLe_trans {a b c : Document} (h1 : docLe a b) (h2 : docLe b c) : docLe a c :=
  leChars_trans (strToLower a.Name).data (strToLower b.Name).data
    (strToLower c.Name).data h1 h2

theorem sortDocs_perm (ds : List Document) : (sortDocs ds).Perm ds :=
  List.perm_insertionSort docLe ds

theorem sortDocs_sorted (ds : List Document) : List.Pairwise docLe (sortDocs ds) :=
  @List.sorted_insertionSort Document docLe _ ⟨docLe_total⟩
    ⟨fun _ _ _ => docLe_trans⟩ ds

theorem sortDocs_eq_nil_iff {ds : List Document} : sortDocs ds = [] ↔ ds = [] := by
  constructor
  · intro h
    have hp := sortDocs_perm ds
    rw [h] at hp
    exact hp.symm.eq_nil
  · intro h
    subst h
    rfl

theorem processEvent_generalDocs (parse : String → List MdNode)
    (render : List MdNode → Option String) (st : ScanState) (ev : WalkEvent) :
    ∃ tail, (processEvent parse render st ev).generalDocs = st.generalDocs ++ tail := by
  cases ev with
  | errEv a => exact ⟨[], by simp [processEvent]⟩
  | dirEv a => exact ⟨[], by simp [processEvent]⟩
  | fileEv dp n c =>
    simp only [processEvent]
    split
    · split
      · exact ⟨[⟨n, "/docs/" ++ n⟩], rfl⟩
      · exact ⟨[], by simp⟩
    · split
      · exact ⟨[], by simp⟩
      · split
        · split
          · exact ⟨[], by simp⟩
          · exact ⟨[], by simp⟩
        · exact ⟨[], by simp⟩

theorem foldl_generalDocs (parse : String → List MdNode)
    (render : List MdNode → Option String) :
    ∀ (evs : List WalkEvent) (st : ScanState),
    ∃ tail, (evs.foldl (processEvent parse render) st).generalDocs =
      st.generalDocs ++ tail
  | [], st => ⟨[], by simp⟩
  | e :: evs, st => by
      obtain ⟨t1, h1⟩ := processEvent_generalDocs parse render st e
      obtain ⟨t2, h2⟩ := foldl_generalDocs parse render evs (processEvent parse render st e)
      exact ⟨t1 ++ t2, by simp [List.foldl_cons, h2, h1]⟩

theorem foldl_generalDocs_ne_nil (parse : String → List MdNode)
    (render : List MdNode → Option String) {n : String} {c : Option String}
    (hpdf : isPdfName n = true) :
    ∀ (evs : List WalkEvent) (st : ScanState), WalkEvent.fileEv [] n c ∈ evs →
    (evs.foldl (processEvent parse render) st).generalDocs ≠ []
  | [], _, hmem => absurd hmem (by simp)
  | e :: evs, st, hmem => by
      rcases List.mem_cons.mp hmem with he | hmem2
      · subst he
        obtain ⟨t2, h2⟩ :=
          foldl_generalDocs parse render evs
            (processEvent parse render st (.fileEv [] n c))
        rw [List.foldl_cons, h2]
        have hpdf2 : strHasSuffix (strToLower n) ".pdf" = true := hpdf
        have hpe : (processEvent parse render st (.fileEv [] n c)).generalDocs =
            st.generalDocs ++ [⟨n, "/docs/" ++ n⟩] := by
          simp only [processEvent, List.isEmpty_nil, if_pos]
          rw [if_pos hpdf2]
        rw [hpe]
        simp
      · exact foldl_generalDocs_ne_nil parse render hpdf evs
          (processEvent parse render st e) hmem2

theorem mem_ensureSec {m : List (String × Section)} {k : String} :
    ∀ q ∈ ensureSec m k, q ∈ m ∨ q = (k, { Name := k, Documents := [], Readme := "" }) := by
  intro q hq
  unfold ensureSec at hq
  split at hq
  · exact Or.inl hq
  · rcases List.mem_append.mp hq with h | h
    · exact Or.inl h
    · exact Or.inr (List.mem_singleton.mp h)

theorem mem_updateSec {m : List (String × Section)} {k : String} {f : Section → Section} :
    ∀ q ∈ updateSec m k f, ∃ p ∈ m, q = p ∨ (p.1 = k ∧ q = (p.1, f p.2)) := by
  intro q hq
  unfold updateSec at hq
  rcases List.mem_map.mp hq with ⟨p, hp, heq⟩
  by_cases hpk : p.1 = k
  · rw [if_pos hpk] at heq
    exact ⟨p, hp, Or.inr ⟨hpk, heq.symm⟩⟩
  · rw [if_neg hpk] at heq
    exact ⟨p, hp, Or.inl heq.symm⟩

theorem lookup_mem : ∀ (m : List (String × Section)) (k : String) (sec : Section),
    m.lookup k = some sec → (k, sec) ∈ m
  | [], k, sec => by simp [List.lookup]
  | (k1, s1) :: rest, k, sec => by
      intro h
      rw [List.lookup] at h
      cases hbeq : (k == k1) with
      | true =>
        rw [hbeq] at h
        have hk : k = k1 := eq_of_beq hbeq
        have hs : s1 = sec := by
          simpa using h
        subst hk
        subst hs
        exact List.mem_cons_self _ _
      | false =>
        rw [hbeq] at h
        exact List.mem_cons_of_mem _ (lookup_mem rest k sec h)

theorem processEvent_stateOK (parse : String → List MdNode)
    (render : List MdNode → Option String) {cs : EntryList} {st : ScanState}
    {ev : WalkEvent} (hst : StateOK cs st) (hev : EvOK cs ev) :
    StateOK cs (processEvent parse render st ev) := by
  cases ev with
  | errEv a => exact hst
  | dirEv a => exact hst
  | fileEv dp n c =>
    have hfi : FileIn cs dp n c := hev dp n c rfl
    simp only [processEvent]
    by_cases h1 : dp.isEmpty = true
    · rw [if_pos h1]
      have hdp0 : dp = [] := by
        cases dp with
        | nil => rfl
        | cons x xs => simp at h1
      subst hdp0
      by_cases h2 : strHasSuffix (strToLower n) ".pdf" = true
      · rw [if_pos h2]
        refine ⟨?_, hst.2⟩
        intro d hd
        rcases List.mem_append.mp hd with hold | hnew
        · exact hst.1 d hold
        · have hde : d = ⟨n, "/docs/" ++ n⟩ := List.mem_singleton.mp hnew
          subst hde
          exact ⟨c, hfi, h2⟩
      · rw [if_neg h2]
        exact hst
    · rw [if_neg h1]
      have hdpne : dp ≠ [] := by
        intro hh
        subst hh
        simp at h1
      have hm : ∀ q ∈ ensureSec st.sectionsMap (joinParts dp),
          q.2.Name = q.1 ∧ ∀ d ∈ q.2.Documents, SecDocOK cs q.1 d := by
        intro q hq
        rcases mem_ensureSec q hq with hq1 | hq2
        · exact hst.2 q hq1
        · subst hq2
          exact ⟨rfl, by simp⟩
      by_cases h2 : strHasSuffix (strToLower n) ".pdf" = true
      · rw [if_pos h2]
        refine ⟨hst.1, ?_⟩
        intro q hq
        dsimp only at hq
        rcases mem_updateSec q hq with ⟨p2, hp2, hc2⟩
        rcases hc2 with rfl | ⟨hk, rfl⟩
        · exact hm _ hp2
        · obtain ⟨hname, hdocs⟩ := hm p2 hp2
          refine ⟨hname, ?_⟩
          intro d hd
          rcases List.mem_append.mp hd with hold | hnew
          · exact hdocs d hold
          · have hde : d = ⟨n, "/docs/" ++ joinParts (dp ++ [n])⟩ :=
              List.mem_singleton.mp hnew
            subst hde
            exact ⟨dp, c, hdpne, hk.symm, hfi, h2⟩
      · rw [if_neg h2]
        by_cases h3 : (strToLower n == "readme.md") = true
        · rw [if_pos h3]
          cases hr : renderReadme parse render c (joinParts dp) with
          | error u => exact ⟨hst.1, hm⟩
          | ok html =>
            refine ⟨hst.1, ?_⟩
            intro q hq
            dsimp only at hq
            rcases mem_updateSec q hq with ⟨p2, hp2, hc2⟩
            rcases hc2 with rfl | ⟨hk, rfl⟩
            · exact hm _ hp2
            · obtain ⟨hname, hdocs⟩ := hm p2 hp2
              exact ⟨hname, hdocs⟩
        · rw [if_neg h3]
          exact ⟨hst.1, hm⟩

theorem foldl_stateOK (parse : String → List MdNode)
    (render : List MdNode → Option String) {cs : EntryList} :
    ∀ (evs : List WalkEvent) (st : ScanState), StateOK cs st →
      (∀ ev ∈ evs, EvOK cs ev) →
      StateOK cs (evs.foldl (processEvent parse render) st)
  | [], _, hst, _ => hst
  | e :: evs, _, hst, hall =>
      foldl_stateOK parse render evs _
        (processEvent_stateOK parse render hst (hall e (List.mem_cons_self e evs)))
        (fun ev hev => hall ev (List.mem_cons_of_mem e hev))

theorem scanState_ok (parse : String → List MdNode)
    (render : List MdNode → Option String) (cs : EntryList) :
    StateOK cs ((walkList [] cs).foldl (processEvent parse render) ⟨[], []⟩) :=
  foldl_stateOK parse render _ _ ⟨by simp, by simp⟩ (walkList_evOK cs)

theorem mem_generalSections {st : ScanState} {s : Section}
    (h : s ∈ generalSections st) :
    s = { Name := "Общее", Documents := sortDocs st.generalDocs, Readme := "" } ∧
      st.generalDocs ≠ [] := by
  unfold generalSections at h
  split at h
  · simp at h
  · rename_i hcond
    refine ⟨List.mem_singleton.mp h, ?_⟩
    intro hnil
    exact hcond (by simp [hnil])

theorem mem_dirSections {st : ScanState} {s : Section} (h : s ∈ dirSections st) :
    ∃ k sec, st.sectionsMap.lookup k = some sec ∧
      s = { sec with Documents := sortDocs sec.Documents } ∧
      (sec.Documents.isEmpty && (sec.Readme == "")) = false := by
  unfold dirSections at h
  rcases List.mem_filterMap.mp h with ⟨k, hk, hfk⟩
  cases hl : st.sectionsMap.lookup k with
  | none =>
    rw [hl] at hfk
    simp at hfk
  | some sec =>
    rw [hl] at hfk
    dsimp only at hfk
    by_cases hg : (sec.Documents.isEmpty && (sec.Readme == "")) = true
    · rw [if_pos hg] at hfk
      simp at hfk
    · rw [if_neg hg] at hfk
      have hs : { sec with Documents := sortDocs sec.Documents } = s := by
        simpa using hfk
      exact ⟨k, sec, hl, hs.symm, by simpa using hg⟩

theorem pairwise_filterMap_name {l : List String} {f : String → Option Section}
    (R : String → String → Prop)
    (hf : ∀ k s, f k = some s → s.Name = k) (hp : List.Pairwise R l) :
    List.Pairwise (fun a b => R a.Name b.Name) (l.filterMap f) := by
  induction hp with
  | nil => simp
  | cons hR hpl ih =>
    rename_i a l2
    rw [List.filterMap_cons]
    cases hfa : f a with
    | none => exact ih
    | some s =>
      refine List.Pairwise.cons ?_ ih
      intro b hb
      rcases List.mem_filterMap.mp hb with ⟨k2, hk2, hfk2⟩
      rw [hf a s hfa, hf k2 b hfk2]
      exact hR k2 hk2

/-- C4: every section scan emits has at least one document or a
non-empty readme, and the output splits into the General part — whose
documents are `.pdf` files directly under the root — and the
per-directory part, where every document of a section is a `.pdf` file
directly inside the directory named by that section (never a nested
subdirectory's file). -/
theorem c4_section_invariants (parse : String → List MdNode)
    (render : List MdNode → Option String) (cs : EntryList)
    (secs : List Section)
    (hscan : scan parse render (.rootDir true cs) = .ok secs) :
    (∀ s ∈ secs, s.Documents ≠ [] ∨ s.Readme ≠ "") ∧
    ∃ gen rest, secs = gen ++ rest ∧
      (∀ s ∈ gen, ∀ d ∈ s.Documents, GenDocOK cs d) ∧
      (∀ s ∈ rest, ∀ d ∈ s.Documents, SecDocOK cs s.Name d) := by
  have h2 : Except.ok (assemble
      ((walkList [] cs).foldl (processEvent parse render) ⟨[], []⟩)) =
      Except.ok secs := hscan
  have hsecs : secs = assemble
      ((walkList [] cs).foldl (processEvent parse render) ⟨[], []⟩) :=
    (Except.ok.inj h2).symm
  subst hsecs
  set st := (walkList [] cs).foldl (processEvent parse render)
    (⟨[], []⟩ : ScanState) with hstdef
  have hok := scanState_ok parse render cs
  rw [← hstdef] at hok
  constructor
  · intro s hs
    rcases List.mem_append.mp hs with hg | hd
    · obtain ⟨hseq, hne⟩ := mem_generalSections hg
      subst hseq
      left
      intro hnil
      exact hne (sortDocs_eq_nil_iff.mp hnil)
    · obtain ⟨k, sec, hl, hseq, hguard⟩ := mem_dirSections hd
      subst hseq
      have hor : sec.Documents.isEmpty = false ∨ ¬ sec.Readme = "" := by
        by_cases hh : sec.Documents.isEmpty = true
        · right
          rw [hh] at hguard
          simpa using hguard
        · left
          simpa using hh
      rcases hor with hh | hh
      · left
        intro hnil
        have hdn : sec.Documents = [] := sortDocs_eq_nil_iff.mp hnil
        rw [hdn] at hh
        simp at hh
      · right
        intro hre
        exact hh hre
  · refine ⟨generalSections st, dirSections st, rfl, ?_, ?_⟩
    · intro s hs d hd
      obtain ⟨hseq, _⟩ := mem_generalSections hs
      subst hseq
      have hd2 : d ∈ st.generalDocs :=
        ((sortDocs_perm st.generalDocs).mem_iff).mp hd
      exact hok.1 d hd2
    · intro s hs d hd
      obtain ⟨k, sec, hl, hseq, _⟩ := mem_dirSections hs
      subst hseq
      obtain ⟨hname, hdocs⟩ := hok.2 (k, sec) (lookup_mem _ k sec hl)
      have hd2 : d ∈ sec.Documents := ((sortDocs_perm sec.Documents).mem_iff).mp hd
      have hsd := hdocs d hd2
      have hshow : ({ sec with Documents := sortDocs sec.Documents } : Section).Name
          = k := hname
      rw [hshow]
      exact hsd

/-- Witness for C4 at a concrete input. -/
theorem c4_section_invariants_witness :
    (∀ s ∈ [(⟨"Общее", [⟨"a.pdf", "/docs/a.pdf"⟩], ""⟩ : Section)],
      s.Documents ≠ [] ∨ s.Readme ≠ "") ∧
    ∃ gen rest,
      [(⟨"Общее", [⟨"a.pdf", "/docs/a.pdf"⟩], ""⟩ : Section)] = gen ++ rest ∧
      (∀ s ∈ gen, ∀ d ∈ s.Documents,
        GenDocOK (.cons (.file "a.pdf" (some "x")) .nil) d) ∧
      (∀ s ∈ rest, ∀ d ∈ s.Documents,
        SecDocOK (.cons (.file "a.pdf" (some "x")) .nil) s.Name d) :=
  c4_section_invariants parse0 render0 (.cons (.file "a.pdf" (some "x")) .nil)
    [⟨"Общее", [⟨"a.pdf", "/docs/a.pdf"⟩], ""⟩] rfl

/-- C5: the scan output is the General section first — present exactly
when some `.pdf` sits directly under the root, carrying no readme —
followed by the per-directory sections whose names ascend in
lexicographic string order; within every emitted section the documents
ascend by case-insensitive name. -/
theorem c5_ordering (parse : String → List MdNode)
    (render : List MdNode → Option String) (cs : EntryList)
    (secs : List Section)
    (hscan : scan parse render (.rootDir true cs) = .ok secs) :
    ∃ gen rest, secs = gen ++ rest ∧
      (gen = [] ∨ ∃ ds, gen = [{ Name := "Общее", Documents := ds, Readme := "" }]) ∧
      (gen ≠ [] ↔ ∃ n c, FileIn cs [] n c ∧ isPdfName n = true) ∧
      List.Pairwise (fun a b => strLe a.Name b.Name) rest ∧
      (∀ s ∈ secs, List.Pairwise
        (fun a b => strLe (strToLower a.Name) (strToLower b.Name)) s.Documents) := by
  have h2 : Except.ok (assemble
      ((walkList [] cs).foldl (processEvent parse render) ⟨[], []⟩)) =
      Except.ok secs := hscan
  have hsecs : secs = assemble
      ((walkList [] cs).foldl (processEvent parse render) ⟨[], []⟩) :=
    (Except.ok.inj h2).symm
  subst hsecs
  set st := (walkList [] cs).foldl (processEvent parse render)
    (⟨[], []⟩ : ScanState) with hstdef
  have hok := scanState_ok parse render cs
  rw [← hstdef] at hok
  refine ⟨generalSections st, dirSections st, rfl, ?_, ?_, ?_, ?_⟩
  · unfold generalSections
    split
    · exact Or.inl rfl
    · exact Or.inr ⟨sortDocs st.generalDocs, rfl⟩
  · constructor
    · intro hne
      have hgd : st.generalDocs ≠ [] := by
        intro hnil
        apply hne
        unfold generalSections
        rw [if_pos (by simp [hnil])]
      obtain ⟨d, hd⟩ := List.exists_mem_of_ne_nil _ hgd
      obtain ⟨c, hfi, hpdf⟩ := hok.1 d hd
      exact ⟨d.Name, c, hfi, hpdf⟩
    · rintro ⟨n, c, hfi, hpdf⟩
      have hev : WalkEvent.fileEv [] n c ∈ walkList [] cs := by
        have hh := fileIn_mem_walkList hfi []
        simpa using hh
      have hgd := foldl_generalDocs_ne_nil parse render hpdf
        (walkList [] cs) ⟨[], []⟩ hev
      rw [← hstdef] at hgd
      intro hgen
      unfold generalSections at hgen
      split at hgen
      · rename_i hcond
        exact hgd (List.isEmpty_iff.mp hcond)
      · simp at hgen
  · unfold dirSections
    refine pairwise_filterMap_name strLe ?_
      (@List.sorted_insertionSort String strLe _ ⟨strLe_total⟩
        ⟨fun _ _ _ hab hbc => strLe_trans hab hbc⟩ _)
    intro k s hks
    cases hl : st.sectionsMap.lookup k with
    | none =>
      rw [hl] at hks
      simp at hks
    | some sec =>
      rw [hl] at hks
      dsimp only at hks
      by_cases hg : (sec.Documents.isEmpty && (sec.Readme == "")) = true
      · rw [if_pos hg] at hks
        simp at hks
      · rw [if_neg hg] at hks
        have hseq : { sec with Documents := sortDocs sec.Documents } = s := by
          simpa using hks
        have hname := (hok.2 (k, sec) (lookup_mem _ k sec hl)).1
        rw [← hseq]
        exact hname
  · intro s hs
    rcases List.mem_append.mp hs with hg | hd
    · obtain ⟨hseq, _⟩ := mem_generalSections hg
      subst hseq
      exact sortDocs_sorted st.generalDocs
    · obtain ⟨k, sec, hl, hseq, _⟩ := mem_dirSections hd
      subst hseq
      exact sortDocs_sorted sec.Documents

/-- Witness for C5 at a concrete input. -/
theorem c5_ordering_witness :
    ∃ gen rest,
      [(⟨"Общее", [⟨"a.pdf", "/docs/a.pdf"⟩], ""⟩ : Section)] = gen ++ rest ∧
      (gen = [] ∨ ∃ ds, gen = [{ Name := "Общее", Documents := ds, Readme := "" }]) ∧
      (gen ≠ [] ↔ ∃ n c,
        FileIn (.cons (.file "a.pdf" (some "x")) .nil) [] n c ∧ isPdfName n = true) ∧
      List.Pairwise (fun a b => strLe a.Name b.Name) rest ∧
      (∀ s ∈ [(⟨"Общее", [⟨"a.pdf", "/docs/a.pdf"⟩], ""⟩ : Section)],
        List.Pairwise
          (fun a b => strLe (strToLower a.Name) (strToLower b.Name)) s.Documents) :=
  c5_ordering parse0 render0 (.cons (.file "a.pdf" (some "x")) .nil)
    [⟨"Общее", [⟨"a.pdf", "/docs/a.pdf"⟩], ""⟩] rfl

/-- Witness for C9 at concrete inputs. -/
theorem c9_idempotent_witness :
    (GetSections parse0 render0
        (GetSections parse0 render0 (NewDocRepository 10) onePdfRootDir 0).2
        onePdfRootDir 1).1 =
      (GetSections parse0 render0 (NewDocRepository 10) onePdfRootDir 0).1 :=
  c9_idempotent parse0 render0 (NewDocRepository 10) onePdfRootDir 0 1
    (by decide) (by decide)

end DocSrv
